import Mathlib

/-!
Shallow embedding of the hash-matching / tokenization core of the
"guess the future block hash" components found in this repository.
Strings are modelled as `List Char`; JavaScript numbers used as token
sizes and block numbers are modelled as `Int` (sizes can be zero or
negative at call sites, block arithmetic can go negative).
-/

namespace HashGuess

/-- Embeds `removePrefix` (part_001 lines 1003-1005):
`hexStr.startsWith("0x") ? hexStr.slice(2) : hexStr`.
Only the lowercase `"0x"` prefix is recognised; no validation occurs. -/
def removePrefix (cs : List Char) : List Char :=
  if cs.take 2 = ['0', 'x'] then cs.drop 2 else cs

/-- Index resolution of `String.prototype.slice`: a negative index is
taken from the end (`length + idx`, floored at 0), a non-negative one
is capped at the length. -/
def jsIndex (len idx : Int) : Nat :=
  (if idx < 0 then max (len + idx) 0 else min idx len).toNat

/-- `str.slice(start, stop)` of ECMAScript on a char list: the chars
from the resolved start (inclusive) to the resolved stop (exclusive),
empty when the resolved stop is not beyond the resolved start. -/
def jsSlice (cs : List Char) (start stop : Int) : List Char :=
  (cs.take (jsIndex cs.length stop)).drop (jsIndex cs.length start)

/-- Embeds the sliding-window `tokenize` (part_001 lines 1007-1013):
`for (i = 0; i <= hexStr.length - size; i++) tokens.push(hexStr.slice(i, i + size))`.
With `size` greater than the length the loop body never runs and the
result is `[]`; with `size ≤ 0` the loop still runs `length - size + 1`
times and each body is a `slice` whose end index `i + size` is at or
before its start (JS resolves a negative end from the end of the
string, so the earliest tokens can be non-empty). -/
def tokenizeSlidingWindow (cs : List Char) (size : Int) : List (List Char) :=
  if (cs.length : Int) - size < 0 then []
  else (List.range (((cs.length : Int) - size + 1).toNat)).map
    (fun (i : Nat) => jsSlice cs (i : Int) ((i : Int) + size))

/-- Non-overlapping chunking of a char list into pieces of `k` chars,
the last possibly shorter; the loop body of the chunked `tokenize`
(part_001 lines 226-228) for a positive step. -/
def chunksOf (cs : List Char) (k : Nat) : List (List Char) :=
  if h : k = 0 then []
  else if hcs : cs = [] then []
  else cs.take k :: chunksOf (cs.drop k) k
termination_by cs.length
decreasing_by
  simp only [List.length_drop]
  have : cs.length ≠ 0 := fun hl => hcs (List.length_eq_zero.mp hl)
  omega

/-- Embeds the chunked `tokenize` (part_001 lines 223-230):
`cleanHash = hash.replace(/^0x/, "")`, then
`for (i = 0; i < cleanHash.length; i += size) tokens.push(cleanHash.substring(i, i + size))`.
For `size ≤ 0` the loop condition fails at once on an empty cleaned
hash (result `[]`), and on a non-empty one the index never reaches the
length, so the loop never terminates — modelled as `none`. -/
def tokenizeChunked (hash : List Char) (size : Int) : Option (List (List Char)) :=
  if size ≤ 0 then
    if removePrefix hash = [] then some [] else none
  else some (chunksOf (removePrefix hash) size.toNat)

/-- One insertion step of a JS `Set` viewed as an ordered list:
a value already present is ignored, a new one goes to the back. -/
def insertIfNew [DecidableEq α] (acc : List α) (a : α) : List α :=
  if a ∈ acc then acc else acc ++ [a]

/-- The ordered list of distinct values of `l`, each at its first
occurrence, exactly the iteration order of a JS `Set` filled by a
left-to-right scan of `l` (used to embed `foundMatches` of
part_001 lines 1030-1038). -/
def dedupKeepFirst [DecidableEq α] (l : List α) : List α :=
  l.foldl insertIfNew []

/-- Embeds `findMatchingTokens` (part_001 lines 1015-1039): guard
`if (!hash1 || !hash2 || size <= 0) return []`, lowercase and strip the
`"0x"` prefix of both hashes, collect the sliding-window tokens of
`hash1` into a `Set`, then scan the sliding-window tokens of `hash2`
and collect those present in the first set into a second `Set`,
returned in insertion order. -/
def findMatchingTokens (hash1 hash2 : List Char) (size : Int) : List (List Char) :=
  if hash1 = [] ∨ hash2 = [] ∨ size ≤ 0 then []
  else
    let cleanHash1 := removePrefix (hash1.map Char.toLower)
    let cleanHash2 := removePrefix (hash2.map Char.toLower)
    dedupKeepFirst ((tokenizeSlidingWindow cleanHash2 size).filter
      (fun t => t ∈ tokenizeSlidingWindow cleanHash1 size))

/-- Value of one hex digit, `none` for a non-digit. -/
def hexDigitVal (c : Char) : Option Nat :=
  if '0' ≤ c ∧ c ≤ '9' then some (c.toNat - '0'.toNat)
  else if 'a' ≤ c ∧ c ≤ 'f' then some (c.toNat - 'a'.toNat + 10)
  else if 'A' ≤ c ∧ c ≤ 'F' then some (c.toNat - 'A'.toNat + 10)
  else none

/-- Greedy accumulation of leading hex digits, as `parseInt(_, 16)`
does after its first digit. -/
def parseHexAcc : List Char → Nat → Nat
  | [], acc => acc
  | c :: rest, acc =>
    match hexDigitVal c with
    | some d => parseHexAcc rest (16 * acc + d)
    | none => acc

/-- Embeds `parseInt(s, 16)`: `none` models `NaN` (no leading hex
digit), otherwise the value of the maximal leading run of hex digits. -/
def parseIntHex (cs : List Char) : Option Nat :=
  match cs with
  | [] => none
  | c :: _ => if (hexDigitVal c).isSome then some (parseHexAcc cs 0) else none

/-- Embeds the complex-mode offset derivation of `fetchTargetBlockHash`
(part_001 lines 304-308): `byteHex = targetHash.slice(2, 4)`,
`byteValue = parseInt(byteHex, 16)`, `adjustedPosition = byteValue % 256`,
`randomBlockNumber = targetBlockCount - adjustedPosition`. Returns
`(byteValue, offset, derivedBlock)`; `none` models the `NaN` outcome of
a non-hex byte. No guard against a negative result exists in the code. -/
def deriveOffset (targetHash : List Char) (targetBlock : Int) :
    Option (Nat × Nat × Int) :=
  match parseIntHex ((targetHash.drop 2).take 2) with
  | none => none
  | some byteValue =>
    some (byteValue, byteValue % 256, targetBlock - ((byteValue % 256 : Nat) : Int))

/-- The record returned by both `calculateBlockRangeIndication`
variants. -/
structure BlockRangeIndication where
  blockDistance : Int
  indication : String
  color : String
deriving DecidableEq, Repr

/-- Embeds `calculateBlockRangeIndication` (part_001 lines 233-254),
the fixed-threshold variant: buckets at `distance ≤ 2`, `≤ 10`,
`≤ 256`, else "dark red". -/
def calculateBlockRangeIndication (distance : Int) : BlockRangeIndication :=
  if distance ≤ 2 then ⟨distance, "dark green", "#10b981"⟩
  else if distance ≤ 10 then ⟨distance, "light green", "#34d399"⟩
  else if distance ≤ 256 then ⟨distance, "light red", "#fb923c"⟩
  else ⟨distance, "dark red", "#ef4444"⟩

/-- Embeds `calculateBlockRangeIndication` (part_001 lines 1074-1097),
the mode-selected variant: `limits = isComplex ? [32,64,96] : [64,128,192]`. -/
def calculateBlockRangeIndicationByMode (blockDistance : Int) (isComplex : Bool) :
    BlockRangeIndication :=
  let t1 : Int := if isComplex then 32 else 64
  let t2 : Int := if isComplex then 64 else 128
  let t3 : Int := if isComplex then 96 else 192
  if blockDistance ≤ t1 then ⟨blockDistance, "dark green", "#10b981"⟩
  else if blockDistance ≤ t2 then ⟨blockDistance, "light green", "#34d399"⟩
  else if blockDistance ≤ t3 then ⟨blockDistance, "light red", "#f87171"⟩
  else ⟨blockDistance, "dark red", "#dc2626"⟩

/-- The shared if-chain shape of both `calculateBlockRangeIndication`
variants with the threshold triple as a parameter (the spec's
`classify`): the indication chosen for a distance under thresholds
`t1, t2, t3`. -/
def classify (distance t1 t2 t3 : Int) : String :=
  if distance ≤ t1 then "dark green"
  else if distance ≤ t2 then "light green"
  else if distance ≤ t3 then "light red"
  else "dark red"

/-- Ordinal rank of an indication, 1 = safest bucket, 4 = "dark red". -/
def indicationRank (s : String) : Nat :=
  if s = "dark green" then 1
  else if s = "light green" then 2
  else if s = "light red" then 3
  else 4

/-- Embeds `finalBlockHash.replace("0x", "")` (taF9.tsx line 317):
JS `String.replace` with a string pattern removes only the FIRST
occurrence of `"0x"`, anywhere in the string. -/
def replaceFirst0x : List Char → List Char
  | [] => []
  | [c] => [c]
  | a :: b :: rest =>
    if a = '0' ∧ b = 'x' then rest else a :: replaceFirst0x (b :: rest)

/-- Embeds the fetched-token computation of `handleVerify`
(taF9.tsx lines 316-319): strip the first `"0x"`, truncate to
`tokenSize * userTokens.length` chars, then chunk into pieces of at
most `tokenSize` chars (the `match(new RegExp(".{1,size}", "g"))`). -/
def fetchedTokensOf (finalBlockHash : List Char) (tokenSize : Nat)
    (numTokens : Nat) : List (List Char) :=
  chunksOf ((replaceFirst0x finalBlockHash).take (tokenSize * numTokens)) tokenSize

/-- Embeds the positional comparison of `handleVerify`
(taF9.tsx lines 321-323): `userTokens.length === fetchedTokens.length &&
userTokens.every((token, i) => token === fetchedTokens[i])`. -/
def handleVerifyIsMatch (userTokens : List (List Char))
    (finalBlockHash : List Char) (tokenSize : Nat) : Bool :=
  let fetched := fetchedTokensOf finalBlockHash tokenSize userTokens.length
  (userTokens.length == fetched.length) &&
    ((userTokens.zip fetched).all fun p => p.1 == p.2)

/-- A hexadecimal character, the source's validation alphabet. -/
def isHexChar (c : Char) : Bool :=
  ('0' ≤ c ∧ c ≤ '9') ∨ ('a' ≤ c ∧ c ≤ 'f') ∨ ('A' ≤ c ∧ c ≤ 'F')

end HashGuess

namespace HashGuess

lemma mem_insertIfNew [DecidableEq α] (acc : List α) (a x : α) :
    x ∈ insertIfNew acc a ↔ x ∈ acc ∨ x = a := by
  unfold insertIfNew
  by_cases h : a ∈ acc
  · rw [if_pos h]
    constructor
    · exact Or.inl
    · rintro (hx | rfl)
      · exact hx
      · exact h
  · rw [if_neg h]
    simp [List.mem_append]

lemma mem_foldl_insertIfNew [DecidableEq α] (l acc : List α) (x : α) :
    x ∈ l.foldl insertIfNew acc ↔ x ∈ acc ∨ x ∈ l := by
  induction l generalizing acc with
  | nil => simp
  | cons a l ih =>
    rw [List.foldl_cons, ih, mem_insertIfNew]
    simp only [List.mem_cons]
    tauto

lemma mem_dedupKeepFirst [DecidableEq α] (l : List α) (x : α) :
    x ∈ dedupKeepFirst l ↔ x ∈ l := by
  unfold dedupKeepFirst
  rw [mem_foldl_insertIfNew]
  simp

lemma nodup_foldl_insertIfNew [DecidableEq α] (l acc : List α) (h : acc.Nodup) :
    (l.foldl insertIfNew acc).Nodup := by
  induction l generalizing acc with
  | nil => exact h
  | cons a l ih =>
    rw [List.foldl_cons]
    apply ih
    unfold insertIfNew
    by_cases ha : a ∈ acc
    · rwa [if_pos ha]
    · rw [if_neg ha]
      refine List.Nodup.append h (List.nodup_singleton a) ?_
      intro x hx hxa
      rw [List.mem_singleton] at hxa
      exact ha (hxa ▸ hx)

lemma nodup_dedupKeepFirst [DecidableEq α] (l : List α) :
    (dedupKeepFirst l).Nodup :=
  nodup_foldl_insertIfNew l [] List.nodup_nil

lemma foldl_insertIfNew_filter [DecidableEq α] (p : α → Bool) (l acc : List α) :
    (l.filter p).foldl insertIfNew (acc.filter p) =
      (l.foldl insertIfNew acc).filter p := by
  induction l generalizing acc with
  | nil => simp
  | cons a l ih =>
    by_cases hp : p a
    · rw [List.filter_cons_of_pos hp, List.foldl_cons, List.foldl_cons]
      have hins : insertIfNew (acc.filter p) a = (insertIfNew acc a).filter p := by
        unfold insertIfNew
        by_cases ha : a ∈ acc
        · rw [if_pos ha, if_pos (List.mem_filter.mpr ⟨ha, hp⟩)]
        · rw [if_neg ha, if_neg (fun hx => ha (List.mem_filter.mp hx).1),
            List.filter_append, List.filter_cons_of_pos hp]
          simp
      rw [hins, ih]
    · rw [List.filter_cons_of_neg (by simpa using hp), List.foldl_cons]
      have hins : (insertIfNew acc a).filter p = acc.filter p := by
        unfold insertIfNew
        by_cases ha : a ∈ acc
        · rw [if_pos ha]
        · rw [if_neg ha, List.filter_append,
            List.filter_cons_of_neg (by simpa using hp)]
          simp
      rw [← hins, ih]

lemma dedupKeepFirst_filter [DecidableEq α] (p : α → Bool) (l : List α) :
    dedupKeepFirst (l.filter p) = (dedupKeepFirst l).filter p := by
  unfold dedupKeepFirst
  have := foldl_insertIfNew_filter p l []
  simpa using this

lemma mem_findMatchingTokens (hash1 hash2 : List Char) (size : Int) (t : List Char) :
    t ∈ findMatchingTokens hash1 hash2 size ↔
      hash1 ≠ [] ∧ hash2 ≠ [] ∧ 0 < size ∧
      t ∈ tokenizeSlidingWindow (removePrefix (hash1.map Char.toLower)) size ∧
      t ∈ tokenizeSlidingWindow (removePrefix (hash2.map Char.toLower)) size := by
  unfold findMatchingTokens
  by_cases hg : hash1 = [] ∨ hash2 = [] ∨ size ≤ 0
  · rw [if_pos hg]
    simp only [List.not_mem_nil, false_iff]
    rintro ⟨h1, h2, h3, -, -⟩
    rcases hg with hg | hg | hg
    · exact h1 hg
    · exact h2 hg
    · omega
  · rw [if_neg hg]
    push_neg at hg
    simp only [mem_dedupKeepFirst, List.mem_filter, decide_eq_true_eq]
    constructor
    · rintro ⟨ht2, ht1⟩
      exact ⟨hg.1, hg.2.1, by omega, ht1, ht2⟩
    · rintro ⟨-, -, -, ht1, ht2⟩
      exact ⟨ht2, ht1⟩

end HashGuess

namespace HashGuess

/-- C5: `findMatchingTokens` (the SET-policy match finder) is symmetric
in content — a token value is a match of `(a, b)` iff it is a match of
`(b, a)` — and deterministic: repeated calls with identical inputs
yield identical output. -/
theorem findMatchingTokens_symm_deterministic :
    ∀ (hash1 hash2 : List Char) (size : Int),
      (∀ t, t ∈ findMatchingTokens hash1 hash2 size ↔
        t ∈ findMatchingTokens hash2 hash1 size) ∧
      findMatchingTokens hash1 hash2 size = findMatchingTokens hash1 hash2 size := by
  intro hash1 hash2 size
  refine ⟨fun t => ?_, rfl⟩
  rw [mem_findMatchingTokens, mem_findMatchingTokens]
  tauto

/-- C10: whenever either hash is empty or the token size is not
positive, `findMatchingTokens` returns the empty list (its silent
degenerate-input guard) rather than failing. -/
theorem findMatchingTokens_degenerate_guard :
    ∀ (hash1 hash2 : List Char) (size : Int),
      hash1 = [] ∨ hash2 = [] ∨ size ≤ 0 → findMatchingTokens hash1 hash2 size = [] := by
  intro hash1 hash2 size hg
  unfold findMatchingTokens
  rw [if_pos hg]

/-- Witness for C10 at a concrete degenerate input. -/
theorem findMatchingTokens_degenerate_guard_witness :
    findMatchingTokens [] ['a', 'b'] 3 = [] :=
  findMatchingTokens_degenerate_guard [] ['a', 'b'] 3 (Or.inl rfl)

/-- C9 counterexample: the source's `removePrefix` (the only
normalization in the code) returns `"12"` for `"0x12"` instead of
raising a `FormatError`, and leaves the uppercase prefix of `"0X12"`
in place instead of removing it. -/
theorem removePrefix_not_normalize_counterexample :
    removePrefix ['0', 'x', '1', '2'] = ['1', '2'] ∧
    removePrefix ['0', 'X', '1', '2'] = ['0', 'X', '1', '2'] := by
  constructor <;> rfl

/-- C9 amended: `removePrefix` strips exactly one leading lowercase
`"0x"` and otherwise returns its input unchanged; it validates nothing
(neither hex alphabet nor length) and never fails. -/
theorem removePrefix_amended :
    (∀ rest : List Char, removePrefix ('0' :: 'x' :: rest) = rest) ∧
    (∀ cs : List Char, cs.take 2 ≠ ['0', 'x'] → removePrefix cs = cs) := by
  constructor
  · intro rest
    unfold removePrefix
    have hc : List.take 2 ('0' :: 'x' :: rest) = ['0', 'x'] := rfl
    rw [if_pos hc]
    rfl
  · intro cs h
    unfold removePrefix
    rw [if_neg h]

/-- Witness for C9 amended at concrete inputs. -/
theorem removePrefix_amended_witness :
    removePrefix ['0', 'x', 'a', 'b'] = ['a', 'b'] ∧
    removePrefix ['a', 'b'] = ['a', 'b'] :=
  ⟨removePrefix_amended.1 ['a', 'b'],
   removePrefix_amended.2 ['a', 'b'] (by decide)⟩

/-- C6: the threshold classification is monotonic — a larger distance
never lands in a safer (lower-ranked) bucket, for every threshold
triple — both source variants are instances of the parametric chain,
and the concrete scenario holds: distance 5 under thresholds
`[2, 10, 256]` is "light green" (second bucket) and distance 500 is
"dark red" (fourth bucket). -/
theorem classify_monotone_and_scenarios :
    (∀ t1 t2 t3 d1 d2 : Int, d1 ≤ d2 →
      indicationRank (classify d1 t1 t2 t3) ≤ indicationRank (classify d2 t1 t2 t3)) ∧
    (∀ d : Int, (calculateBlockRangeIndication d).indication = classify d 2 10 256) ∧
    (∀ (d : Int) (isComplex : Bool),
      (calculateBlockRangeIndicationByMode d isComplex).indication =
        classify d (if isComplex then 32 else 64) (if isComplex then 64 else 128)
          (if isComplex then 96 else 192)) ∧
    (calculateBlockRangeIndication 5).indication = "light green" ∧
    (calculateBlockRangeIndication 500).indication = "dark red" := by
  refine ⟨?_, ?_, ?_, by decide, by decide⟩
  · intro t1 t2 t3 d1 d2 hle
    unfold classify
    split_ifs <;> first | decide | omega
  · intro d
    unfold calculateBlockRangeIndication classify
    split_ifs <;> rfl
  · intro d isComplex
    unfold calculateBlockRangeIndicationByMode classify
    cases isComplex <;> simp only [Bool.false_eq_true, if_true, if_false] <;>
      split_ifs <;> rfl

/-- Witness for C6 at a concrete distance pair. -/
theorem classify_monotone_witness :
    indicationRank (classify 1 2 10 256) ≤ indicationRank (classify 5 2 10 256) :=
  classify_monotone_and_scenarios.1 2 10 256 1 5 (by decide)

/-- C7 counterexample: the complex-mode derivation returns a negative
derived block number (here `-255` for target block `0` and a seed hash
with first byte `0xff`) instead of raising a `RangeError`. -/
theorem deriveOffset_negative_counterexample :
    deriveOffset ['0', 'x', 'f', 'f'] 0 = some (255, 255, -255) := by
  rfl

/-- C7 amended: the derivation computes `offset = byteValue % 256` and
`derivedBlock = targetBlock - offset`; the offset is below the modulus,
so the derived block is non-negative whenever `targetBlock ≥ 256` — but
a negative derived block is returned as-is, never rejected. -/
theorem deriveOffset_amended :
    ∀ (targetHash : List Char) (targetBlock : Int) (byteValue offset : Nat)
      (derivedBlock : Int),
      deriveOffset targetHash targetBlock = some (byteValue, offset, derivedBlock) →
      offset = byteValue % 256 ∧ derivedBlock = targetBlock - (offset : Int) ∧
      offset < 256 ∧ (256 ≤ targetBlock → 0 ≤ derivedBlock) := by
  intro targetHash targetBlock byteValue offset derivedBlock h
  unfold deriveOffset at h
  cases hp : parseIntHex ((targetHash.drop 2).take 2) with
  | none => rw [hp] at h; exact absurd h (by simp)
  | some bv =>
    rw [hp] at h
    simp only [Option.some.injEq, Prod.mk.injEq] at h
    obtain ⟨hbv, hoff, hdb⟩ := h
    subst hbv
    subst hoff
    refine ⟨rfl, hdb.symm, by omega, fun hb => ?_⟩
    omega

/-- Witness for C7 amended at a concrete seed hash and target block. -/
theorem deriveOffset_amended_witness :
    (255 : Nat) = 255 % 256 ∧ (45 : Int) = 300 - ((255 : Nat) : Int) ∧
    (255 : Nat) < 256 ∧ ((256 : Int) ≤ 300 → (0 : Int) ≤ 45) :=
  deriveOffset_amended ['0', 'x', 'f', 'f'] 300 255 255 45 (by rfl)

end HashGuess

namespace HashGuess

lemma chunksOf_nil (k : Nat) : chunksOf [] k = [] := by
  rw [chunksOf]
  by_cases hk : k = 0
  · rw [dif_pos hk]
  · rw [dif_neg hk, dif_pos rfl]

lemma chunksOf_cons (cs : List Char) (k : Nat) (hk : k ≠ 0) (hcs : cs ≠ []) :
    chunksOf cs k = cs.take k :: chunksOf (cs.drop k) k := by
  rw [chunksOf, dif_neg hk, dif_neg hcs]

lemma chunksOf_join (k : Nat) (hk : 1 ≤ k) (cs : List Char) :
    (chunksOf cs k).join = cs := by
  have main : ∀ (n : Nat) (cs : List Char), cs.length ≤ n → (chunksOf cs k).join = cs := by
    intro n
    induction n with
    | zero =>
      intro cs hcs
      have hnil : cs = [] := List.length_eq_zero.mp (Nat.le_zero.mp hcs)
      subst hnil
      rw [chunksOf_nil]
      rfl
    | succ n ih =>
      intro cs hcs
      by_cases hnil : cs = []
      · subst hnil
        rw [chunksOf_nil]
        rfl
      · have hpos : 0 < cs.length := List.length_pos.mpr hnil
        rw [chunksOf_cons cs k (by omega) hnil]
        have hrec := ih (cs.drop k) (by rw [List.length_drop]; omega)
        simp only [List.join_cons, hrec]
        exact List.take_append_drop k cs
  exact main cs.length cs le_rfl

lemma chunksOf_length (k : Nat) (hk : 1 ≤ k) (cs : List Char) :
    (chunksOf cs k).length = (cs.length + k - 1) / k := by
  have main : ∀ (n : Nat) (cs : List Char), cs.length ≤ n →
      (chunksOf cs k).length = (cs.length + k - 1) / k := by
    intro n
    induction n with
    | zero =>
      intro cs hcs
      have hnil : cs = [] := List.length_eq_zero.mp (Nat.le_zero.mp hcs)
      subst hnil
      rw [chunksOf_nil]
      have he : List.length ([] : List Char) + k - 1 = k - 1 := by
        simp
      rw [he, Nat.div_eq_of_lt (by omega)]
      rfl
    | succ n ih =>
      intro cs hcs
      by_cases hnil : cs = []
      · subst hnil
        rw [chunksOf_nil]
        have he : List.length ([] : List Char) + k - 1 = k - 1 := by simp
        rw [he, Nat.div_eq_of_lt (by omega)]
        rfl
      · have hpos : 0 < cs.length := List.length_pos.mpr hnil
        rw [chunksOf_cons cs k (by omega) hnil]
        rw [List.length_cons, ih (cs.drop k) (by rw [List.length_drop]; omega),
          List.length_drop]
        by_cases hle : cs.length ≤ k
        · have h1 : cs.length - k + k - 1 = k - 1 := by omega
          have h2 : (k - 1) / k = 0 := Nat.div_eq_of_lt (by omega)
          have h3 : (cs.length + k - 1) / k = 1 := by
            apply Nat.div_eq_of_lt_le
            · omega
            · omega
          rw [h1, h2, h3]
        · have h1 : cs.length - k + k - 1 = cs.length - 1 := by omega
          have h2 : cs.length + k - 1 = (cs.length - 1) + k := by omega
          rw [h1, h2, Nat.add_div_right _ (by omega)]
  exact main cs.length cs le_rfl

lemma chunksOf_dropLast (k : Nat) (hk : 1 ≤ k) (cs : List Char) :
    ∀ t ∈ (chunksOf cs k).dropLast, t.length = k := by
  have main : ∀ (n : Nat) (cs : List Char), cs.length ≤ n →
      ∀ t ∈ (chunksOf cs k).dropLast, t.length = k := by
    intro n
    induction n with
    | zero =>
      intro cs hcs t ht
      have hnil : cs = [] := List.length_eq_zero.mp (Nat.le_zero.mp hcs)
      subst hnil
      rw [chunksOf_nil] at ht
      simp at ht
    | succ n ih =>
      intro cs hcs t ht
      by_cases hnil : cs = []
      · subst hnil
        rw [chunksOf_nil] at ht
        simp at ht
      · have hpos : 0 < cs.length := List.length_pos.mpr hnil
        rw [chunksOf_cons cs k (by omega) hnil] at ht
        by_cases hrest : cs.drop k = []
        · rw [hrest, chunksOf_nil] at ht
          simp at ht
        · have hne : chunksOf (cs.drop k) k ≠ [] := by
            rw [chunksOf_cons (cs.drop k) k (by omega) hrest]
            exact List.cons_ne_nil _ _
          rw [List.dropLast_cons_of_ne_nil hne] at ht
          rcases List.mem_cons.mp ht with rfl | ht
          · have hklen : k < cs.length := by
              by_contra hc
              exact hrest (List.drop_eq_nil_of_le (by omega))
            rw [List.length_take]
            omega
          · exact ih (cs.drop k) (by rw [List.length_drop]; omega) t ht
  exact main cs.length cs le_rfl

lemma chunksOf_mem_length (k : Nat) (hk : 1 ≤ k) (cs : List Char) :
    ∀ t ∈ chunksOf cs k, 0 < t.length ∧ t.length ≤ k := by
  have main : ∀ (n : Nat) (cs : List Char), cs.length ≤ n →
      ∀ t ∈ chunksOf cs k, 0 < t.length ∧ t.length ≤ k := by
    intro n
    induction n with
    | zero =>
      intro cs hcs t ht
      have hnil : cs = [] := List.length_eq_zero.mp (Nat.le_zero.mp hcs)
      subst hnil
      rw [chunksOf_nil] at ht
      simp at ht
    | succ n ih =>
      intro cs hcs t ht
      by_cases hnil : cs = []
      · subst hnil
        rw [chunksOf_nil] at ht
        simp at ht
      · have hpos : 0 < cs.length := List.length_pos.mpr hnil
        rw [chunksOf_cons cs k (by omega) hnil] at ht
        rcases List.mem_cons.mp ht with rfl | ht
        · rw [List.length_take]
          omega
        · exact ih (cs.drop k) (by rw [List.length_drop]; omega) t ht
  exact main cs.length cs le_rfl

lemma chunksOf_join_uniform (k : Nat) (hk : 1 ≤ k) (a : List (List Char))
    (hlen : ∀ t ∈ a, t.length = k) : chunksOf a.join k = a := by
  induction a with
  | nil => exact chunksOf_nil k
  | cons t a ih =>
    have htlen : t.length = k := hlen t (List.mem_cons_self t a)
    have htne : t ≠ [] := by
      intro hc
      rw [hc] at htlen
      simp at htlen
      omega
    have hjoin : (t :: a).join = t ++ a.join := rfl
    rw [hjoin, chunksOf_cons _ k (by omega) (by simp [htne])]
    rw [← htlen, List.take_left, List.drop_left]
    rw [htlen]
    rw [ih (fun u hu => hlen u (List.mem_cons_of_mem t hu))]

end HashGuess

namespace HashGuess

/-- C2: for every already-unprefixed hash and every positive token
size, the chunked tokenizer terminates and returns exactly
`⌈len/size⌉` non-overlapping tokens whose concatenation is the hash;
every token but the last has exactly `size` chars and the last is
non-empty and at most `size` chars. -/
theorem tokenizeChunked_spec (h : List Char) (s : Int) (hs : 1 ≤ s)
    (hpre : h.take 2 ≠ ['0', 'x']) :
    ∃ ts, tokenizeChunked h s = some ts ∧
      ts.length = (h.length + s.toNat - 1) / s.toNat ∧
      ts.join = h ∧
      (∀ t ∈ ts.dropLast, (t.length : Int) = s) ∧
      ∀ t ∈ ts, 0 < t.length ∧ (t.length : Int) ≤ s := by
  have hk : 1 ≤ s.toNat := by omega
  have hclean : removePrefix h = h := by
    unfold removePrefix
    rw [if_neg hpre]
  refine ⟨chunksOf h s.toNat, ?_, chunksOf_length s.toNat hk h,
    chunksOf_join s.toNat hk h, ?_, ?_⟩
  · unfold tokenizeChunked
    rw [if_neg (by omega), hclean]
  · intro t ht
    have := chunksOf_dropLast s.toNat hk h t ht
    omega
  · intro t ht
    have := chunksOf_mem_length s.toNat hk h t ht
    exact ⟨this.1, by omega⟩

/-- Witness for C2 at a concrete hash and token size. -/
theorem tokenizeChunked_spec_witness :
    ∃ ts, tokenizeChunked ['a', 'b', 'c', 'd', 'e', 'f'] 4 = some ts ∧
      ts.length = (['a', 'b', 'c', 'd', 'e', 'f'].length + (4 : Int).toNat - 1) /
        (4 : Int).toNat ∧
      ts.join = ['a', 'b', 'c', 'd', 'e', 'f'] ∧
      (∀ t ∈ ts.dropLast, (t.length : Int) = 4) ∧
      ∀ t ∈ ts, 0 < t.length ∧ (t.length : Int) ≤ 4 :=
  tokenizeChunked_spec ['a', 'b', 'c', 'd', 'e', 'f'] 4 (by decide) (by decide)

/-- C8 counterexample: no `RangeError` is ever raised for an invalid
token size — the sliding-window tokenizer silently returns `[]` for
`size > len`, the chunked tokenizer silently returns one partial token,
and for `size = 0` on a non-empty hash the chunked loop never
terminates (modelled `none`) instead of failing. -/
theorem tokenize_invalid_size_counterexample :
    tokenizeSlidingWindow ['a', 'b', 'c'] 10 = [] ∧
    tokenizeChunked ['a', 'b', 'c'] 10 = some [['a', 'b', 'c']] ∧
    tokenizeChunked ['a', 'b', 'c'] 0 = none := by
  refine ⟨by decide, ?_, by decide⟩
  unfold tokenizeChunked
  rw [if_neg (by decide)]
  have h1 : removePrefix ['a', 'b', 'c'] = ['a', 'b', 'c'] := by decide
  rw [h1, chunksOf_cons _ _ (by decide) (by decide)]
  have h2 : List.drop (10 : Int).toNat ['a', 'b', 'c'] = [] := by decide
  rw [h2, chunksOf_nil]
  decide

/-- C8 amended: neither tokenizer surfaces an error for an invalid
size. For `size` beyond the hash length the sliding-window tokenizer
returns the empty list and the chunked tokenizer returns the whole
(unprefixed) hash as a single short token. For `size ≤ 0` the chunked
tokenizer returns `[]` when the cleaned hash is empty and otherwise
never terminates (no value at all), while the sliding-window tokenizer
still returns `length - size + 1` tokens — resolved by JS `slice`
semantics, so for a negative size the earliest tokens can be non-empty,
e.g. `tokenize("ab", -1) = ["a", "", "", ""]`. -/
theorem tokenize_invalid_size_amended :
    (∀ (h : List Char) (s : Int),
      ((h.length : Int) < s →
        tokenizeSlidingWindow h s = [] ∧
        tokenizeChunked h s =
          some (if removePrefix h = [] then [] else [removePrefix h])) ∧
      (s ≤ 0 →
        tokenizeChunked h s = (if removePrefix h = [] then some [] else none) ∧
        ((tokenizeSlidingWindow h s).length : Int) = (h.length : Int) - s + 1)) ∧
    tokenizeSlidingWindow ['a', 'b'] (-1) = [['a'], [], [], []] := by
  constructor
  · intro h s
    constructor
    · intro hlt
      have hle : (removePrefix h).length ≤ h.length := by
        unfold removePrefix
        split_ifs
        · rw [List.length_drop]
          omega
        · exact le_rfl
      constructor
      · unfold tokenizeSlidingWindow
        rw [if_pos (by omega)]
      · unfold tokenizeChunked
        rw [if_neg (by omega)]
        congr 1
        by_cases hnil : removePrefix h = []
        · rw [if_pos hnil, hnil, chunksOf_nil]
        · rw [if_neg hnil, chunksOf_cons _ _ (by omega) hnil]
          have h1 : List.take s.toNat (removePrefix h) = removePrefix h :=
            List.take_of_length_le (by omega)
          have h2 : List.drop s.toNat (removePrefix h) = [] :=
            List.drop_eq_nil_of_le (by omega)
          rw [h1, h2, chunksOf_nil]
    · intro hle
      constructor
      · unfold tokenizeChunked
        rw [if_pos hle]
      · unfold tokenizeSlidingWindow
        rw [if_neg (by omega), List.length_map, List.length_range]
        omega
  · decide

/-- Witness for C8 amended at concrete invalid sizes. -/
theorem tokenize_invalid_size_amended_witness :
    (tokenizeSlidingWindow ['a', 'b'] 5 = [] ∧
      tokenizeChunked ['a', 'b'] 5 =
        some (if removePrefix ['a', 'b'] = [] then [] else [removePrefix ['a', 'b']])) ∧
    (tokenizeChunked ['a', 'b'] (-1) =
        (if removePrefix ['a', 'b'] = [] then some [] else none) ∧
      ((tokenizeSlidingWindow ['a', 'b'] (-1)).length : Int) =
        (['a', 'b'].length : Int) - (-1) + 1) :=
  ⟨(tokenize_invalid_size_amended.1 ['a', 'b'] 5).1 (by decide),
   (tokenize_invalid_size_amended.1 ['a', 'b'] (-1)).2 (by decide)⟩

end HashGuess

namespace HashGuess

lemma beq_length_zip_all_iff :
    ∀ (a b : List (List Char)),
      ((a.length == b.length) && ((a.zip b).all fun p => p.1 == p.2)) = true ↔ a = b := by
  intro a
  induction a with
  | nil =>
    intro b
    cases b <;> simp
  | cons t a ih =>
    intro b
    cases b with
    | nil => simp
    | cons u b =>
      simp only [List.length_cons, List.zip_cons_cons, List.all_cons,
        Bool.and_eq_true, beq_iff_eq, List.cons.injEq]
      constructor
      · rintro ⟨hlen, ht, hall⟩
        refine ⟨ht, (ih b).mp ?_⟩
        simp only [Bool.and_eq_true, beq_iff_eq]
        exact ⟨by omega, hall⟩
      · rintro ⟨rfl, h2⟩
        subst h2
        refine ⟨rfl, rfl, ?_⟩
        have := (ih _).mpr rfl
        simp only [Bool.and_eq_true, beq_iff_eq] at this
        exact this.2

lemma handleVerifyIsMatch_iff_eq (userTokens : List (List Char))
    (finalBlockHash : List Char) (tokenSize : Nat) :
    handleVerifyIsMatch userTokens finalBlockHash tokenSize = true ↔
      userTokens = fetchedTokensOf finalBlockHash tokenSize userTokens.length := by
  unfold handleVerifyIsMatch
  exact beq_length_zip_all_iff userTokens _

/-- C4 counterexample: the positional verifier of `handleVerify`
declares a match for an empty guessed-token sequence (the claim says a
match requires both sequences non-empty), and it rejects a pair the
claim's truncate-to-min semantics would accept: two guessed tokens
against a 2-char fetched hash (only one fetched token, so equal-length
comparison fails). -/
theorem handleVerify_positional_counterexample :
    handleVerifyIsMatch [] ['a', 'b'] 3 = true ∧
    handleVerifyIsMatch [['a', 'a'], ['b', 'b']] ['a', 'a'] 2 = false := by
  constructor
  · rw [handleVerifyIsMatch_iff_eq]
    unfold fetchedTokensOf
    have h0 : (replaceFirst0x ['a', 'b']).take (3 * ([] : List (List Char)).length) = [] := by
      decide
    rw [h0, chunksOf_nil]
  · rw [Bool.eq_false_iff]
    intro hc
    rw [handleVerifyIsMatch_iff_eq] at hc
    unfold fetchedTokensOf at hc
    have h1 : (replaceFirst0x ['a', 'a']).take
        (2 * ([['a', 'a'], ['b', 'b']] : List (List Char)).length) = ['a', 'a'] := by
      decide
    rw [h1, chunksOf_cons _ _ (by decide) (by decide)] at hc
    have h2 : List.drop 2 ['a', 'a'] = [] := by decide
    rw [h2, chunksOf_nil] at hc
    have h3 : List.take 2 ['a', 'a'] = ['a', 'a'] := by decide
    rw [h3] at hc
    exact absurd hc (by decide)

/-- C4 amended: the positional verifier truncates the fetched hash to
`tokenSize * |userTokens|` chars, chunk-tokenizes it, and matches iff
the two token sequences are equal — equal-length strict comparison, not
truncate-to-min, and an empty guess sequence matches vacuously. When
the stripped fetched hash is long enough and every guessed token has
exactly `tokenSize` chars, the match succeeds iff the concatenated
guessed tokens equal the corresponding prefix of the fetched hash. -/
theorem handleVerify_positional_amended :
    ∀ (userTokens : List (List Char)) (finalBlockHash : List Char) (tokenSize : Nat),
      1 ≤ tokenSize →
      (∀ t ∈ userTokens, t.length = tokenSize) →
      tokenSize * userTokens.length ≤ (replaceFirst0x finalBlockHash).length →
      (handleVerifyIsMatch userTokens finalBlockHash tokenSize = true ↔
        userTokens.join =
          (replaceFirst0x finalBlockHash).take (tokenSize * userTokens.length)) := by
  intro a h s hs hlen hfetch
  rw [handleVerifyIsMatch_iff_eq]
  unfold fetchedTokensOf
  constructor
  · intro heq
    have hjoin : a.join = (chunksOf ((replaceFirst0x h).take (s * a.length)) s).join := by
      rw [← heq]
    rw [hjoin, chunksOf_join s hs]
  · intro hjoin
    have : chunksOf ((replaceFirst0x h).take (s * a.length)) s = a := by
      rw [← hjoin]
      exact chunksOf_join_uniform s hs a hlen
    exact this.symm

/-- Witness for C4 amended at a concrete guess and fetched hash. -/
theorem handleVerify_positional_amended_witness :
    handleVerifyIsMatch [['a', 'a'], ['b', 'b']] ['0', 'x', 'a', 'a', 'b', 'b', 'c', 'c'] 2 = true ↔
      ([['a', 'a'], ['b', 'b']] : List (List Char)).join =
        (replaceFirst0x ['0', 'x', 'a', 'a', 'b', 'b', 'c', 'c']).take
          (2 * ([['a', 'a'], ['b', 'b']] : List (List Char)).length) :=
  handleVerify_positional_amended [['a', 'a'], ['b', 'b']]
    ['0', 'x', 'a', 'a', 'b', 'b', 'c', 'c'] 2 (by decide) (by decide) (by decide)

end HashGuess

namespace HashGuess

/-- C3 counterexample: for hashes `"ab"` and `"ba"` with token size 1,
`findMatchingTokens` returns `["b", "a"]` — first-occurrence order in
the SECOND (fetched) sequence, not in the first (guessed) sequence as
the claim states, and the result carries no index annotations. -/
theorem findMatchingTokens_order_counterexample :
    findMatchingTokens ['a', 'b'] ['b', 'a'] 1 = [['b'], ['a']] ∧
    ([['b'], ['a']] : List (List Char)) ≠ [['a'], ['b']] := by
  constructor
  · rfl
  · decide

/-- C3 amended: for non-degenerate inputs the SET-policy match finder
returns the distinct token values common to both sliding-window token
sets — as a value set it is the intersection — without any index
annotations, duplicate-free, ordered by first occurrence in the SECOND
(fetched) sequence; the concrete scenario's hashes `"abcbcd"` vs
`"xyzbcd"` at size 3 yield exactly the single match `"bcd"`. -/
theorem findMatchingTokens_set_policy_amended :
    (∀ (hash1 hash2 : List Char) (size : Int),
      hash1 ≠ [] → hash2 ≠ [] → 0 < size →
      (findMatchingTokens hash1 hash2 size =
        (dedupKeepFirst
            (tokenizeSlidingWindow (removePrefix (hash2.map Char.toLower)) size)).filter
          (fun t => t ∈ tokenizeSlidingWindow (removePrefix (hash1.map Char.toLower)) size) ∧
       (findMatchingTokens hash1 hash2 size).Nodup ∧
       ∀ t, t ∈ findMatchingTokens hash1 hash2 size ↔
         t ∈ tokenizeSlidingWindow (removePrefix (hash1.map Char.toLower)) size ∧
         t ∈ tokenizeSlidingWindow (removePrefix (hash2.map Char.toLower)) size)) ∧
    findMatchingTokens ['a', 'b', 'c', 'b', 'c', 'd'] ['x', 'y', 'z', 'b', 'c', 'd'] 3 =
      [['b', 'c', 'd']] := by
  constructor
  · intro hash1 hash2 size h1 h2 hs
    have hg : ¬(hash1 = [] ∨ hash2 = [] ∨ size ≤ 0) := by
      push_neg
      exact ⟨h1, h2, by omega⟩
    refine ⟨?_, ?_, ?_⟩
    · unfold findMatchingTokens
      rw [if_neg hg]
      exact dedupKeepFirst_filter _ _
    · unfold findMatchingTokens
      rw [if_neg hg]
      exact nodup_dedupKeepFirst _
    · intro t
      rw [mem_findMatchingTokens]
      tauto
  · rfl

/-- Witness for C3 amended at a concrete pair of hashes. -/
theorem findMatchingTokens_set_policy_amended_witness :
    (findMatchingTokens ['a', 'b'] ['b', 'a'] 1).Nodup :=
  ((findMatchingTokens_set_policy_amended.1 ['a', 'b'] ['b', 'a'] 1
    (by decide) (by decide) (by decide)).2).1

end HashGuess

namespace HashGuess

lemma jsSlice_nonneg (cs : List Char) (i : Nat) (s : Int) (h0 : 0 ≤ s)
    (hle : (i : Int) + s ≤ (cs.length : Int)) :
    jsSlice cs i (i + s) = (cs.drop i).take s.toNat := by
  unfold jsSlice jsIndex
  rw [if_neg (by omega : ¬((i : Int) < 0)), if_neg (by omega : ¬((i : Int) + s < 0))]
  have e1 : (min ((i : Int) + s) (cs.length : Int)).toNat = i + s.toNat := by
    rw [min_eq_left hle]
    omega
  have e2 : (min (i : Int) (cs.length : Int)).toNat = i := by
    rw [min_eq_left (by omega)]
    omega
  rw [e1, e2, List.drop_take]
  congr 1
  omega

lemma tokenizeSlidingWindow_eq (cs : List Char) (s : Int) (h0 : 0 ≤ s)
    (h1 : s ≤ (cs.length : Int)) :
    tokenizeSlidingWindow cs s =
      (List.range (cs.length - s.toNat + 1)).map (fun i => (cs.drop i).take s.toNat) := by
  unfold tokenizeSlidingWindow
  rw [if_neg (by omega)]
  have hc : ((cs.length : Int) - s + 1).toNat = cs.length - s.toNat + 1 := by omega
  rw [hc]
  apply List.map_congr_left
  intro i hi
  rw [List.mem_range] at hi
  exact jsSlice_nonneg cs i s h0 (by omega)

lemma join_map_singleton {α β : Type} (f : α → β) (l : List α) :
    (l.map fun a => [f a]).join = l.map f := by
  induction l with
  | nil => rfl
  | cons a l ih => simp [ih]

lemma drop_eq_range_map (cs : List Char) (k : Nat) (hk : k ≤ cs.length) :
    cs.drop k = (List.range (cs.length - k)).map (fun i => cs.getD (k + i) 'a') := by
  apply List.ext_getElem
  · simp
  · intro j h1 h2
    rw [List.getElem_drop, List.getElem_map, List.getElem_range,
      List.getD_eq_getElem cs 'a' (by rw [List.length_drop] at h1; omega)]

lemma sliding_reconstruct (cs : List Char) (k : Nat) (hk : 1 ≤ k)
    (hlen : k ≤ cs.length) :
    cs = ((List.range (cs.length - k + 1)).map
        (fun i => (cs.drop i).take k)).headD [] ++
      (((List.range (cs.length - k + 1)).map (fun i => (cs.drop i).take k)).tail.map
        (fun t => t.drop (k - 1))).join := by
  rw [List.range_succ_eq_map]
  simp only [List.map_cons, List.headD_cons, List.tail_cons, List.drop_zero,
    List.map_map]
  have hmap : ((List.range (cs.length - k)).map
      ((fun t => t.drop (k - 1)) ∘ (fun i => (cs.drop i).take k) ∘ Nat.succ)) =
      (List.range (cs.length - k)).map (fun i => [cs.getD (k + i) 'a']) := by
    apply List.map_congr_left
    intro i hi
    rw [List.mem_range] at hi
    show ((cs.drop (Nat.succ i)).take k).drop (k - 1) = [cs.getD (k + i) 'a']
    rw [List.drop_take, List.drop_drop]
    have harith : Nat.succ i + (k - 1) = k + i := by omega
    rw [harith]
    have hlt : k + i < cs.length := by omega
    have htake := List.take_one_drop_eq_of_lt_length hlt
    have hone : k - (k - 1) = 1 := by omega
    rw [hone, htake, List.get_eq_getElem, List.getD_eq_getElem cs 'a' hlt]
  rw [hmap, join_map_singleton, ← drop_eq_range_map cs k hlen]
  exact (List.take_append_drop k cs).symm

/-- C1: for every 64-char hex hash and token size `s ∈ [3, 64]`, the
sliding-window tokenizer returns exactly `64 - s + 1` tokens, the
`i`-th token is the substring at offset `i` of length `s`, every token
has length `s`, and the overlapping tokens reconstruct the hash: the
first token followed by the last character of each subsequent token. -/
theorem tokenizeSlidingWindow_spec (h : List Char) (s : Int)
    (hlen : h.length = 64) (hhex : ∀ c ∈ h, isHexChar c = true)
    (hs1 : 3 ≤ s) (hs2 : s ≤ 64) :
    ((tokenizeSlidingWindow h s).length : Int) = 64 - s + 1 ∧
    (∀ i : Nat, i < (tokenizeSlidingWindow h s).length →
      (tokenizeSlidingWindow h s).getD i [] = (h.drop i).take s.toNat) ∧
    (∀ t ∈ tokenizeSlidingWindow h s, (t.length : Int) = s) ∧
    h = (tokenizeSlidingWindow h s).headD [] ++
      ((tokenizeSlidingWindow h s).tail.map (fun t => t.drop (s.toNat - 1))).join := by
  have h0 : (0 : Int) ≤ s := by omega
  have h1 : s ≤ (h.length : Int) := by omega
  have heq := tokenizeSlidingWindow_eq h s h0 h1
  rw [heq]
  refine ⟨?_, ?_, ?_, ?_⟩
  · rw [List.length_map, List.length_range]
    omega
  · intro i hi
    rw [List.length_map, List.length_range] at hi
    rw [List.getD_eq_getElem _ _ (by rw [List.length_map, List.length_range]; omega),
      List.getElem_map, List.getElem_range]
  · intro t ht
    rw [List.mem_map] at ht
    obtain ⟨i, hi, rfl⟩ := ht
    rw [List.mem_range] at hi
    rw [List.length_take, List.length_drop]
    omega
  · exact sliding_reconstruct h s.toNat (by omega) (by omega)

/-- Witness for C1 at the all-zero 64-char hash with token size 3. -/
theorem tokenizeSlidingWindow_spec_witness :
    ((tokenizeSlidingWindow (List.replicate 64 '0') 3).length : Int) = 64 - 3 + 1 :=
  (tokenizeSlidingWindow_spec (List.replicate 64 '0') 3 (by decide)
    (by decide) (by decide) (by decide)).1

end HashGuess
